import Mathlib

/-!
# Verification of the Kindelia disk persistence codec (`persistence.rs`)

Shallow embedding of the `DiskSer` trait implementations:

* scalar codecs for `u8`, `u128`, `i128` (fixed-width little-endian);
* the `Vec` sequence codec (EOF-terminated concatenation of elements);
* the `HashMap` associative codec (key/value pairs, EOF-terminated at a key);
* the `Arc` ownership-wrapper codec (delegation);
* the `CompFunc` codec (16-byte length prefix around an externally
  bit-packed payload, followed by an external compile step).

A byte stream is a `List Nat` of bytes read left to right.  A deserializer
takes the stream and returns `Except DiskError (Option α × List Nat)`:
`.error e` for a hard I/O error, `.ok (none, rest)` for a clean end of
stream ("no value here"), `.ok (some a, rest)` for a decoded value plus the
unconsumed remainder of the stream.  This mirrors Rust's
`IoResult<Option<Self>>` together with the advancing read cursor.
`Read::read` into an `n`-byte buffer is modelled as taking
`min n (length s)` bytes from the front of the stream.
-/

set_option maxRecDepth 8000

/-- The `std::io::ErrorKind` values that `persistence.rs` constructs. -/
inductive DiskError where
  | unexpectedEof
  | invalidData
deriving DecidableEq, Repr

/-- Result of one decode attempt: error, clean end, or value; paired with
the remaining stream on success. -/
abbrev DiskResult (α : Type) := Except DiskError (Option α × List Nat)

/-- Little-endian byte decomposition of `n` into `w` bytes
(`<int>::to_le_bytes`). -/
def toLeBytes : Nat → Nat → List Nat
  | 0, _ => []
  | w + 1, n => n % 256 :: toLeBytes w (n / 256)

/-- Little-endian reassembly of a byte list (`<int>::from_le_bytes`). -/
def fromLeBytes : List Nat → Nat
  | [] => 0
  | b :: bs => b + 256 * fromLeBytes bs

theorem toLeBytes_length (w n : Nat) : (toLeBytes w n).length = w := by
  induction w generalizing n with
  | zero => rfl
  | succ w ih => simp [toLeBytes, ih]

theorem fromLeBytes_toLeBytes (w n : Nat) :
    fromLeBytes (toLeBytes w n) = n % 256 ^ w := by
  induction w generalizing n with
  | zero => simp [toLeBytes, fromLeBytes, Nat.mod_one]
  | succ w ih =>
      simp only [toLeBytes, fromLeBytes, ih]
      rw [pow_succ, Nat.mul_comm (256 ^ w) 256, Nat.mod_mul]

/-! ## Scalar codecs (`impl DiskSer for u8 / i128 / u128`) -/

/-- `u8::disk_serialize`: write `self.to_le_bytes()` (one byte); the
returned count is what `sink.write` reports, i.e. the buffer length. -/
def u8_disk_serialize (v : Nat) : List Nat × Nat :=
  ([v % 256], 1)

/-- `u8::disk_deserialize`: read into a 1-byte buffer; 0 bytes means clean
end, otherwise the byte itself. -/
def u8_disk_deserialize (s : List Nat) : DiskResult Nat :=
  match s with
  | [] => .ok (none, [])
  | b :: rest => .ok (some b, rest)

/-- `u128::disk_serialize`: write the 16 little-endian bytes. -/
def u128_disk_serialize (v : Nat) : List Nat × Nat :=
  (toLeBytes 16 v, (toLeBytes 16 v).length)

/-- `u128::disk_deserialize`: read up to 16 bytes; 0 read means clean end,
1..=15 read means `UnexpectedEof`, 16 read means the little-endian value. -/
def u128_disk_deserialize (s : List Nat) : DiskResult Nat :=
  if s.length = 0 then .ok (none, s)
  else if s.length ≤ 15 then .error .unexpectedEof
  else .ok (some (fromLeBytes (s.take 16)), s.drop 16)

/-- Two's-complement reading of 16 little-endian bytes
(`i128::from_le_bytes`). -/
def i128OfLeBytes (bs : List Nat) : Int :=
  if fromLeBytes bs < 2 ^ 127 then (fromLeBytes bs : Int)
  else (fromLeBytes bs : Int) - 2 ^ 128

/-- `i128::disk_serialize`: write the 16 little-endian bytes of the
two's-complement representation. -/
def i128_disk_serialize (v : Int) : List Nat × Nat :=
  (toLeBytes 16 (v % 2 ^ 128).toNat, (toLeBytes 16 (v % 2 ^ 128).toNat).length)

/-- `i128::disk_deserialize`: same shape as the unsigned decoder, with a
two's-complement reassembly. -/
def i128_disk_deserialize (s : List Nat) : DiskResult Int :=
  if s.length = 0 then .ok (none, s)
  else if s.length ≤ 15 then .error .unexpectedEof
  else .ok (some (i128OfLeBytes (s.take 16)), s.drop 16)

theorem u8_roundtrip (v : Nat) (hv : v < 256) (r : List Nat) :
    u8_disk_deserialize (( u8_disk_serialize v).1 ++ r) = .ok (some v, r) := by
  simp [u8_disk_serialize, u8_disk_deserialize, Nat.mod_eq_of_lt hv]

theorem u128_roundtrip (v : Nat) (hv : v < 2 ^ 128) (r : List Nat) :
    u128_disk_deserialize ((u128_disk_serialize v).1 ++ r) = .ok (some v, r) := by
  have hlen : (toLeBytes 16 v).length = 16 := toLeBytes_length 16 v
  simp only [u128_disk_serialize, u128_disk_deserialize, List.length_append, hlen]
  have h16 : ¬ (16 + r.length = 0) := by omega
  have h15 : ¬ (16 + r.length ≤ 15) := by omega
  rw [if_neg h16, if_neg h15, List.take_append_of_le_length (by omega),
    List.drop_append_of_le_length (by omega)]
  rw [List.take_of_length_le (by omega), fromLeBytes_toLeBytes,
    Nat.mod_eq_of_lt (by simpa using hv)]
  simp [hlen]

theorem i128_roundtrip (v : Int) (hlo : -(2 ^ 127) ≤ v) (hhi : v < 2 ^ 127)
    (r : List Nat) :
    i128_disk_deserialize ((i128_disk_serialize v).1 ++ r) = .ok (some v, r) := by
  set n : Nat := (v % 2 ^ 128).toNat with hn
  have hcast : (n : Int) = v % 2 ^ 128 := Int.toNat_of_nonneg (by omega)
  have hn128 : n < 2 ^ 128 := by omega
  have hlen : (toLeBytes 16 n).length = 16 := toLeBytes_length 16 n
  simp only [i128_disk_serialize, ← hn, i128_disk_deserialize,
    List.length_append, hlen]
  have h16 : ¬ (16 + r.length = 0) := by omega
  have h15 : ¬ (16 + r.length ≤ 15) := by omega
  rw [if_neg h16, if_neg h15, List.take_append_of_le_length (by omega),
    List.drop_append_of_le_length (by omega), List.take_of_length_le (by omega)]
  have hfrom : fromLeBytes (toLeBytes 16 n) = n := by
    rw [fromLeBytes_toLeBytes]
    omega
  have hval : i128OfLeBytes (toLeBytes 16 n) = v := by
    rw [i128OfLeBytes, hfrom]
    split <;> omega
  rw [hval]
  simp [hlen]

/-! ## Generic element decoders for the container codecs

The `Vec` and `HashMap` decode loops call the element type's
`disk_deserialize` repeatedly.  A `Decoder` packages such a
`disk_deserialize` together with the fact that a produced value consumed at
least one byte of the stream; every `DiskSer` impl actually used as an
element, key or value (the scalars, `CompFunc`, `Arc` of those) satisfies
it, and the greedy container loops terminate because of it. -/

structure Decoder (α : Type) where
  decode : List Nat → DiskResult α
  consumes_some : ∀ s a s', decode s = .ok (some a, s') → s'.length < s.length

def u8Decoder : Decoder Nat where
  decode := u8_disk_deserialize
  consumes_some := by
    intro s a s' h
    cases s with
    | nil => simp [u8_disk_deserialize] at h
    | cons b rest =>
        simp only [u8_disk_deserialize, Except.ok.injEq, Prod.mk.injEq,
          Option.some.injEq] at h
        simp [← h.2]

def u128Decoder : Decoder Nat where
  decode := u128_disk_deserialize
  consumes_some := by
    intro s a s' h
    rw [u128_disk_deserialize] at h
    split at h
    · simp at h
    · split at h
      · simp at h
      · simp only [Except.ok.injEq, Prod.mk.injEq, Option.some.injEq] at h
        have := h.2
        simp only [← this, List.length_drop]
        omega

def i128Decoder : Decoder Int where
  decode := i128_disk_deserialize
  consumes_some := by
    intro s a s' h
    rw [i128_disk_deserialize] at h
    split at h
    · simp at h
    · split at h
      · simp at h
      · simp only [Except.ok.injEq, Prod.mk.injEq, Option.some.injEq] at h
        have := h.2
        simp only [← this, List.length_drop]
        omega

/-! ## Sequence codec (`impl DiskSer for Vec<K>`) -/

/-- `Vec::disk_serialize`: encode each element in list order and sum the
reported byte counts; no terminator or length is written. -/
def vec_disk_serialize (encE : α → List Nat) : List α → List Nat × Nat
  | [] => ([], 0)
  | e :: rest =>
      let b := encE e
      let r := vec_disk_serialize encE rest
      (b ++ r.1, b.length + r.2)

/-- The `while let Some(elem)` loop of `Vec::disk_deserialize`, carrying
the accumulated vector `res`. -/
def vecDeserializeLoop (d : Decoder α) (acc : List α) (s : List Nat) :
    DiskResult (List α) :=
  match h : d.decode s with
  | .error e => .error e
  | .ok (none, s') => .ok (some acc, s')
  | .ok (some e, s') => vecDeserializeLoop d (acc ++ [e]) s'
termination_by s.length
decreasing_by exact d.consumes_some s e s' h

/-- `Vec::disk_deserialize`: push decoded elements until the element
decoder reports clean end; always returns a vector (possibly empty). -/
def vec_disk_deserialize (d : Decoder α) (s : List Nat) : DiskResult (List α) :=
  vecDeserializeLoop d [] s

/-! ## Associative codec (`impl DiskSer for HashMap<K, V, H>`) -/

/-- Rust's overwriting `HashMap::insert`, on the lookup model of a map as
a function into `Option`. -/
def mapInsert [DecidableEq K] (m : K → Option V) (k : K) (v : V) :
    K → Option V :=
  fun x => if x = k then some v else m x

/-- The `while let Some(key)` loop of `HashMap::disk_deserialize`,
carrying the map `slf` built so far. -/
def hashMapDeserializeLoop [DecidableEq K] (dK : Decoder K) (dV : Decoder V)
    (m : K → Option V) (s : List Nat) : DiskResult (K → Option V) :=
  match hk : dK.decode s with
  | .error e => .error e
  | .ok (none, s') => .ok (some m, s')
  | .ok (some k, s1) =>
      match hv : dV.decode s1 with
      | .error e => .error e
      | .ok (none, _) => .error .unexpectedEof
      | .ok (some v, s2) => hashMapDeserializeLoop dK dV (mapInsert m k v) s2
termination_by s.length
decreasing_by
  have h1 := dK.consumes_some s k s1 hk
  have h2 := dV.consumes_some s1 v s2 hv
  omega

/-- `HashMap::disk_deserialize`: decode key/value pairs until a key decode
reports clean end; a key whose value decode reports clean end is a
truncation error. -/
def hashMap_disk_deserialize [DecidableEq K] (dK : Decoder K) (dV : Decoder V)
    (s : List Nat) : DiskResult (K → Option V) :=
  hashMapDeserializeLoop dK dV (fun _ => none) s

/-! ## Ownership wrapper codec (`impl DiskSer for Arc<T>`) -/

/-- Model of `Arc<T>`: the observable content is the value reached through
`Deref`. -/
structure ArcBox (α : Type) where
  deref : α
deriving Repr

/-- `Arc<T>::disk_serialize`: delegate to the dereferenced inner value. -/
def arc_disk_serialize (encT : α → List Nat × Nat) (a : ArcBox α) :
    List Nat × Nat :=
  encT a.deref

/-- `Arc<T>::disk_deserialize`: delegate to the inner decode (`?`
propagates the error), then `map(Arc::new)` the optional value. -/
def arc_disk_deserialize (d : Decoder α) (s : List Nat) :
    DiskResult (ArcBox α) :=
  match d.decode s with
  | .error e => .error e
  | .ok (o, s') => .ok (o.map ArcBox.mk, s')

/-! ## Compiled-function codec (`impl DiskSer for CompFunc`) -/

/-- `CompFunc::disk_deserialize`, parameterized by the external
collaborators: `unpack` stands for
`Func::proto_deserialized(&BitVec::from_bytes(buf))` and `compile` for
`compile_func(func, false)`; both live outside the persistence module.
The Rust code casts the decoded `u128` length with `len as usize`, which
on a 64-bit platform reduces it modulo `2 ^ 64`. -/
def compFunc_disk_deserialize (unpack : List Nat → Option R)
    (compile : R → Option C) (s : List Nat) : DiskResult C :=
  match u128_disk_deserialize s with
  | .error e => .error e
  | .ok (none, s') => .ok (none, s')
  | .ok (some len, s') =>
      if s'.length < len % 2 ^ 64 then .error .unexpectedEof
      else
        match unpack (s'.take (len % 2 ^ 64)) with
        | none => .error .invalidData
        | some f =>
            match compile f with
            | none => .error .invalidData
            | some cf => .ok (some cf, s'.drop (len % 2 ^ 64))

/-! ## Result classification and unfolding lemmas for the decode loops -/

/-- A decode result is a clean end exactly when it is `Ok(None)`. -/
def isCleanEnd : DiskResult α → Bool
  | .ok (none, _) => true
  | _ => false

theorem vecLoop_error (d : Decoder α) (acc : List α) (s : List Nat)
    (e : DiskError) (h : d.decode s = .error e) :
    vecDeserializeLoop d acc s = .error e := by
  rw [vecDeserializeLoop]
  split <;> rename_i heq <;> rw [h] at heq <;> simp_all

theorem vecLoop_none (d : Decoder α) (acc : List α) (s s' : List Nat)
    (h : d.decode s = .ok (none, s')) :
    vecDeserializeLoop d acc s = .ok (some acc, s') := by
  rw [vecDeserializeLoop]
  split <;> rename_i heq <;> rw [h] at heq <;> simp_all

theorem vecLoop_some (d : Decoder α) (acc : List α) (s : List Nat) (e : α)
    (s' : List Nat) (h : d.decode s = .ok (some e, s')) :
    vecDeserializeLoop d acc s = vecDeserializeLoop d (acc ++ [e]) s' := by
  rw [vecDeserializeLoop]
  split <;> rename_i heq <;> rw [h] at heq <;> simp_all

theorem hmLoop_keyError [DecidableEq K] (dK : Decoder K) (dV : Decoder V)
    (m : K → Option V) (s : List Nat) (e : DiskError)
    (hk : dK.decode s = .error e) :
    hashMapDeserializeLoop dK dV m s = .error e := by
  rw [hashMapDeserializeLoop]
  split <;> rename_i heq <;> rw [hk] at heq <;> simp_all

theorem hmLoop_keyNone [DecidableEq K] (dK : Decoder K) (dV : Decoder V)
    (m : K → Option V) (s s' : List Nat)
    (hk : dK.decode s = .ok (none, s')) :
    hashMapDeserializeLoop dK dV m s = .ok (some m, s') := by
  rw [hashMapDeserializeLoop]
  split <;> rename_i heq <;> rw [hk] at heq <;> simp_all

theorem hmLoop_valError [DecidableEq K] (dK : Decoder K) (dV : Decoder V)
    (m : K → Option V) (s s1 : List Nat) (k : K) (e : DiskError)
    (hk : dK.decode s = .ok (some k, s1))
    (hv : dV.decode s1 = .error e) :
    hashMapDeserializeLoop dK dV m s = .error e := by
  rw [hashMapDeserializeLoop]
  split
  · rename_i e' heq; rw [hk] at heq; simp_all
  · rename_i s' heq; rw [hk] at heq; simp_all
  · rename_i k' s1' heq
    rw [hk] at heq
    simp only [Except.ok.injEq, Prod.mk.injEq, Option.some.injEq] at heq
    obtain ⟨hk1, hs1⟩ := heq
    subst hk1; subst hs1
    split <;> rename_i heq2 <;> rw [hv] at heq2 <;> simp_all

theorem hmLoop_valNone [DecidableEq K] (dK : Decoder K) (dV : Decoder V)
    (m : K → Option V) (s s1 s2 : List Nat) (k : K)
    (hk : dK.decode s = .ok (some k, s1))
    (hv : dV.decode s1 = .ok (none, s2)) :
    hashMapDeserializeLoop dK dV m s = .error .unexpectedEof := by
  rw [hashMapDeserializeLoop]
  split
  · rename_i e' heq; rw [hk] at heq; simp_all
  · rename_i s' heq; rw [hk] at heq; simp_all
  · rename_i k' s1' heq
    rw [hk] at heq
    simp only [Except.ok.injEq, Prod.mk.injEq, Option.some.injEq] at heq
    obtain ⟨hk1, hs1⟩ := heq
    subst hk1; subst hs1
    split <;> rename_i heq2 <;> rw [hv] at heq2 <;> simp_all

theorem hmLoop_step [DecidableEq K] (dK : Decoder K) (dV : Decoder V)
    (m : K → Option V) (s s1 s2 : List Nat) (k : K) (v : V)
    (hk : dK.decode s = .ok (some k, s1))
    (hv : dV.decode s1 = .ok (some v, s2)) :
    hashMapDeserializeLoop dK dV m s =
      hashMapDeserializeLoop dK dV (mapInsert m k v) s2 := by
  rw [hashMapDeserializeLoop]
  split
  · rename_i e' heq; rw [hk] at heq; simp_all
  · rename_i s' heq; rw [hk] at heq; simp_all
  · rename_i k' s1' heq
    rw [hk] at heq
    simp only [Except.ok.injEq, Prod.mk.injEq, Option.some.injEq] at heq
    obtain ⟨hk1, hs1⟩ := heq
    subst hk1; subst hs1
    split <;> rename_i heq2 <;> rw [hv] at heq2 <;> simp_all

/-- The `Vec` decode loop never reports a clean end: it turns the clean end
of its element stream into a successful (possibly empty) vector. -/
theorem vecLoop_never_cleanEnd (d : Decoder α) (acc : List α) (s : List Nat) :
    isCleanEnd (vecDeserializeLoop d acc s) = false := by
  induction acc, s using vecDeserializeLoop.induct d with
  | case1 acc s e h => rw [vecLoop_error d acc s e h]; rfl
  | case2 acc s s' h => rw [vecLoop_none d acc s s' h]; rfl
  | case3 acc s e s' h ih => rw [vecLoop_some d acc s e s' h]; exact ih

/-- The `HashMap` decode loop never reports a clean end. -/
theorem hmLoop_never_cleanEnd [DecidableEq K] (dK : Decoder K)
    (dV : Decoder V) (m : K → Option V) (s : List Nat) :
    isCleanEnd (hashMapDeserializeLoop dK dV m s) = false := by
  induction m, s using hashMapDeserializeLoop.induct dK dV with
  | case1 m s e h => rw [hmLoop_keyError dK dV m s e h]; rfl
  | case2 m s s' h => rw [hmLoop_keyNone dK dV m s s' h]; rfl
  | case3 m s k s1 hk e hv => rw [hmLoop_valError dK dV m s s1 k e hk hv]; rfl
  | case4 m s k s1 hk s2 hv => rw [hmLoop_valNone dK dV m s s1 s2 k hk hv]; rfl
  | case5 m s k s1 hk v s2 hv ih =>
      rw [hmLoop_step dK dV m s s1 s2 k v hk hv]; exact ih

/-! ## Round-trip facts for the sequence codec -/

/-- Decoding the concatenated element encodings, starting from accumulator
`acc`, yields `acc ++ l` and consumes the whole stream. -/
theorem vecLoop_roundtrip (d : Decoder α) (enc : α → List Nat)
    (hr : ∀ a r, d.decode (enc a ++ r) = .ok (some a, r))
    (he : d.decode [] = .ok (none, []))
    (l acc : List α) :
    vecDeserializeLoop d acc (vec_disk_serialize enc l).1 =
      .ok (some (acc ++ l), []) := by
  induction l generalizing acc with
  | nil =>
      rw [show (vec_disk_serialize enc []).1 = [] from rfl,
        vecLoop_none d acc [] [] he]
      simp
  | cons e rest ih =>
      rw [show (vec_disk_serialize enc (e :: rest)).1
          = enc e ++ (vec_disk_serialize enc rest).1 from rfl,
        vecLoop_some d acc _ e _ (hr e _), ih]
      simp

/-! ## The associative codec's map semantics -/

/-- A key/value pair list laid out on the wire: key encoding then value
encoding, pair after pair. -/
def pairsStream (encK : K → List Nat) (encV : V → List Nat) :
    List (K × V) → List Nat
  | [] => []
  | (k, v) :: rest => encK k ++ (encV v ++ pairsStream encK encV rest)

/-- The mapping described by a pair list: overwriting inserts into the
empty map, in list order (the reference semantics of the decode loop). -/
def mapOfPairs [DecidableEq K] (pairs : List (K × V)) : K → Option V :=
  pairs.foldl (fun m p => mapInsert m p.1 p.2) (fun _ => none)

/-- Decoding a stream of encoded pairs starting from map `m` folds the
overwriting insert over the pairs and consumes the whole stream. -/
theorem hashMapLoop_pairs [DecidableEq K] (dK : Decoder K) (dV : Decoder V)
    (encK : K → List Nat) (encV : V → List Nat)
    (hrK : ∀ k r, dK.decode (encK k ++ r) = .ok (some k, r))
    (hrV : ∀ v r, dV.decode (encV v ++ r) = .ok (some v, r))
    (heK : dK.decode [] = .ok (none, []))
    (pairs : List (K × V)) (m : K → Option V) :
    hashMapDeserializeLoop dK dV m (pairsStream encK encV pairs) =
      .ok (some (pairs.foldl (fun m p => mapInsert m p.1 p.2) m), []) := by
  induction pairs generalizing m with
  | nil =>
      rw [show pairsStream encK encV [] = [] from rfl,
        hmLoop_keyNone dK dV m [] [] heK]
      rfl
  | cons p rest ih =>
      obtain ⟨k, v⟩ := p
      rw [show pairsStream encK encV ((k, v) :: rest)
          = encK k ++ (encV v ++ pairsStream encK encV rest) from rfl,
        hmLoop_step dK dV m _ _ _ k v (hrK k _) (hrV v _), ih]
      rfl

/-- Inserts at distinct keys commute. -/
theorem mapInsert_comm [DecidableEq K] (m : K → Option V) (k1 k2 : K)
    (v1 v2 : V) (hne : k1 ≠ k2) :
    mapInsert (mapInsert m k1 v1) k2 v2
      = mapInsert (mapInsert m k2 v2) k1 v1 := by
  funext x
  simp only [mapInsert]
  by_cases h1 : x = k1 <;> by_cases h2 : x = k2 <;> simp_all

/-- A fold of inserts whose keys all differ from `k` leaves the lookup at
`k` unchanged. -/
theorem foldlInsert_lookup_of_not_mem [DecidableEq K] (ys : List (K × V))
    (m : K → Option V) (k : K) (hk : ∀ p ∈ ys, p.1 ≠ k) :
    ys.foldl (fun m p => mapInsert m p.1 p.2) m k = m k := by
  induction ys generalizing m with
  | nil => rfl
  | cons p rest ih =>
      rw [List.foldl_cons, ih _ (fun q hq => hk q (List.mem_cons_of_mem p hq))]
      have hne : p.1 ≠ k := hk p (List.mem_cons_self p rest)
      simp only [mapInsert]
      rw [if_neg (fun h => hne h.symm)]

/-- Folding the overwriting insert is invariant under permutations of the
pair list when the keys are pairwise distinct. -/
theorem foldlInsert_perm [DecidableEq K] {l1 l2 : List (K × V)}
    (hp : l1.Perm l2) (hn : (l1.map Prod.fst).Nodup) (m : K → Option V) :
    l1.foldl (fun m p => mapInsert m p.1 p.2) m
      = l2.foldl (fun m p => mapInsert m p.1 p.2) m := by
  induction hp generalizing m with
  | nil => rfl
  | cons x hperm ih =>
      simp only [List.foldl_cons]
      refine ih ?_ _
      simp only [List.map_cons, List.nodup_cons] at hn
      exact hn.2
  | swap x y l =>
      simp only [List.foldl_cons]
      have hxy : y.1 ≠ x.1 := by
        simp only [List.map_cons, List.nodup_cons, List.mem_cons] at hn
        exact fun h => hn.1 (Or.inl h)
      rw [mapInsert_comm m y.1 x.1 y.2 x.2 hxy]
  | trans h1 h2 ih1 ih2 =>
      rw [ih1 hn m]
      refine ih2 ?_ m
      exact ((List.Perm.map Prod.fst h1).nodup_iff).mp hn

/-! ## Further helper lemmas -/

theorem toLeBytes_getD (w n i : Nat) (h : i < w) :
    (toLeBytes w n).getD i 0 = n / 256 ^ i % 256 := by
  induction w generalizing n i with
  | zero => omega
  | succ w ih =>
      cases i with
      | zero => simp [toLeBytes]
      | succ i =>
          have hi : i < w := by omega
          simpa [toLeBytes, Nat.div_div_eq_div_mul, pow_succ, Nat.mul_comm,
            Nat.pow_succ] using ih (n / 256) i hi

/-- Decoding a stream that starts with the 16-byte encoding of `n`
produces `n` and leaves the rest. -/
theorem u128_deser_append (n : Nat) (hn : n < 2 ^ 128) (r : List Nat) :
    u128_disk_deserialize (toLeBytes 16 n ++ r) = .ok (some n, r) := by
  simpa [u128_disk_serialize] using u128_roundtrip n hn r

theorem u128_deser_short (s : List Nat) (h1 : s.length ≠ 0)
    (h15 : s.length ≤ 15) :
    u128_disk_deserialize s = .error .unexpectedEof := by
  rw [u128_disk_deserialize, if_neg h1, if_pos h15]

theorem u128_deser_long (s : List Nat) (h : 16 ≤ s.length) :
    u128_disk_deserialize s
      = .ok (some (fromLeBytes (s.take 16)), s.drop 16) := by
  rw [u128_disk_deserialize, if_neg (by omega), if_neg (by omega)]

theorem i128_deser_short (s : List Nat) (h1 : s.length ≠ 0)
    (h15 : s.length ≤ 15) :
    i128_disk_deserialize s = .error .unexpectedEof := by
  rw [i128_disk_deserialize, if_neg h1, if_pos h15]

theorem i128_deser_long (s : List Nat) (h : 16 ≤ s.length) :
    i128_disk_deserialize s
      = .ok (some (i128OfLeBytes (s.take 16)), s.drop 16) := by
  rw [i128_disk_deserialize, if_neg (by omega), if_neg (by omega)]

/-- The `CompFunc` decode of a stream beginning with a 16-byte length
prefix `L`, fully characterized: the payload is the next `L % 2 ^ 64`
bytes (the `len as usize` cast on a 64-bit platform). -/
theorem compFunc_deser_header (unpack : List Nat → Option R)
    (compile : R → Option C) (L : Nat) (hL : L < 2 ^ 128) (r : List Nat) :
    compFunc_disk_deserialize unpack compile (toLeBytes 16 L ++ r)
      = if r.length < L % 2 ^ 64 then .error .unexpectedEof
        else
          match unpack (r.take (L % 2 ^ 64)) with
          | none => .error .invalidData
          | some f =>
              match compile f with
              | none => .error .invalidData
              | some cf => .ok (some cf, r.drop (L % 2 ^ 64)) := by
  rw [compFunc_disk_deserialize, u128_deser_append L hL r]

/-- The `CompFunc` decode is a clean end exactly when the length-prefix
decode is. -/
theorem compFunc_cleanEnd_eq (unpack : List Nat → Option R)
    (compile : R → Option C) (s : List Nat) :
    isCleanEnd (compFunc_disk_deserialize unpack compile s)
      = isCleanEnd (u128_disk_deserialize s) := by
  rw [compFunc_disk_deserialize]
  rcases h : u128_disk_deserialize s with e | ⟨o, s'⟩
  · rfl
  · cases o with
    | none => rfl
    | some len =>
        dsimp only
        split
        · rfl
        · split
          · rfl
          · split <;> rfl

/-! ## Claim theorems -/

/-- **C3**: for every supported scalar type (`u8`, `u128`, `i128`) and every
value `v` of that type, `disk_serialize v` writes exactly `width(v)` bytes
(1 for `u8`, 16 for `u128` and `i128`) in little-endian order — byte `i`
of the output is digit `i` of the base-256 representation (two's-complement
for `i128`) — and returns exactly that byte count. -/
theorem C3_scalar_serialize_width_le (v8 : Nat) (h8 : v8 < 256) (vu : Nat)
    (hu : vu < 2 ^ 128) (vi : Int) (hlo : -(2 ^ 127) ≤ vi)
    (hhi : vi < 2 ^ 127) :
    ((u8_disk_serialize v8).2 = 1 ∧ (u8_disk_serialize v8).1 = [v8])
    ∧ ((u128_disk_serialize vu).2 = 16
        ∧ (u128_disk_serialize vu).1.length = 16
        ∧ ∀ i, i < 16 →
            (u128_disk_serialize vu).1.getD i 0 = vu / 256 ^ i % 256)
    ∧ ((i128_disk_serialize vi).2 = 16
        ∧ (i128_disk_serialize vi).1.length = 16
        ∧ ∀ i, i < 16 →
            (i128_disk_serialize vi).1.getD i 0
              = (vi % 2 ^ 128).toNat / 256 ^ i % 256) := by
  refine ⟨⟨rfl, ?_⟩, ⟨?_, ?_, ?_⟩, ⟨?_, ?_, ?_⟩⟩
  · simp [u8_disk_serialize, Nat.mod_eq_of_lt h8]
  · simp [u128_disk_serialize, toLeBytes_length]
  · simp [u128_disk_serialize, toLeBytes_length]
  · intro i hi
    simpa [u128_disk_serialize] using toLeBytes_getD 16 vu i hi
  · simp [i128_disk_serialize, toLeBytes_length]
  · simp [i128_disk_serialize, toLeBytes_length]
  · intro i hi
    rw [i128_disk_serialize]
    exact toLeBytes_getD 16 (vi % 2 ^ 128).toNat i hi

/-- Witness for C3 at the extreme representable values. -/
theorem C3_scalar_serialize_width_le_witness :
    ((u8_disk_serialize 255).2 = 1 ∧ (u8_disk_serialize 255).1 = [255])
    ∧ ((u128_disk_serialize (2 ^ 128 - 1)).2 = 16
        ∧ (u128_disk_serialize (2 ^ 128 - 1)).1.length = 16
        ∧ ∀ i, i < 16 →
            (u128_disk_serialize (2 ^ 128 - 1)).1.getD i 0
              = (2 ^ 128 - 1) / 256 ^ i % 256)
    ∧ ((i128_disk_serialize (-(2 ^ 127))).2 = 16
        ∧ (i128_disk_serialize (-(2 ^ 127))).1.length = 16
        ∧ ∀ i, i < 16 →
            (i128_disk_serialize (-(2 ^ 127))).1.getD i 0
              = ((-(2 ^ 127) : Int) % 2 ^ 128).toNat / 256 ^ i % 256) :=
  C3_scalar_serialize_width_le 255 (by norm_num) (2 ^ 128 - 1) (by norm_num)
    (-(2 ^ 127)) le_rfl (by norm_num)

/-- **C5**: for every supported scalar type and every representable value
`v` (including 0 and the type's minimum and maximum), decoding a stream
containing exactly the bytes produced by `disk_serialize v` yields
`Some v` (and consumes the whole stream). -/
theorem C5_scalar_roundtrip (v8 : Nat) (h8 : v8 < 256) (vu : Nat)
    (hu : vu < 2 ^ 128) (vi : Int) (hlo : -(2 ^ 127) ≤ vi)
    (hhi : vi < 2 ^ 127) :
    u8_disk_deserialize (u8_disk_serialize v8).1 = .ok (some v8, [])
    ∧ u128_disk_deserialize (u128_disk_serialize vu).1 = .ok (some vu, [])
    ∧ i128_disk_deserialize (i128_disk_serialize vi).1 = .ok (some vi, []) := by
  refine ⟨?_, ?_, ?_⟩
  · simpa using u8_roundtrip v8 h8 []
  · simpa using u128_roundtrip vu hu []
  · simpa using i128_roundtrip vi hlo hhi []

/-- Witness for C5 at 0 and at the minima/maxima of each width. -/
theorem C5_scalar_roundtrip_witness :
    (u8_disk_deserialize (u8_disk_serialize 0).1 = .ok (some 0, [])
      ∧ u128_disk_deserialize (u128_disk_serialize 0).1 = .ok (some 0, [])
      ∧ i128_disk_deserialize (i128_disk_serialize 0).1 = .ok (some 0, []))
    ∧ (u8_disk_deserialize (u8_disk_serialize 255).1 = .ok (some 255, [])
      ∧ u128_disk_deserialize (u128_disk_serialize (2 ^ 128 - 1)).1
          = .ok (some (2 ^ 128 - 1), [])
      ∧ i128_disk_deserialize (i128_disk_serialize (-(2 ^ 127))).1
          = .ok (some (-(2 ^ 127)), []))
    ∧ i128_disk_deserialize (i128_disk_serialize (2 ^ 127 - 1)).1
        = .ok (some (2 ^ 127 - 1), []) :=
  ⟨C5_scalar_roundtrip 0 (by norm_num) 0 (by norm_num) 0 (by norm_num)
     (by norm_num),
   C5_scalar_roundtrip 255 (by norm_num) (2 ^ 128 - 1) (by norm_num)
     (-(2 ^ 127)) le_rfl (by norm_num),
   (C5_scalar_roundtrip 0 (by norm_num) 0 (by norm_num) (2 ^ 127 - 1)
     (by norm_num) (by norm_num)).2.2⟩

/-- **C6**: for the 16-byte scalar codecs, `disk_deserialize` returns clean
end on an empty stream, a truncation error when 1–15 bytes are obtainable,
and on at least 16 obtainable bytes the value assembled little-endian from
the first 16 bytes (leaving the rest unconsumed). -/
theorem C6_sixteen_byte_decode_cases (s : List Nat) :
    (s = [] →
        u128_disk_deserialize s = .ok (none, [])
        ∧ i128_disk_deserialize s = .ok (none, []))
    ∧ (1 ≤ s.length → s.length ≤ 15 →
        u128_disk_deserialize s = .error .unexpectedEof
        ∧ i128_disk_deserialize s = .error .unexpectedEof)
    ∧ (16 ≤ s.length →
        u128_disk_deserialize s
          = .ok (some (fromLeBytes (s.take 16)), s.drop 16)
        ∧ i128_disk_deserialize s
          = .ok (some (i128OfLeBytes (s.take 16)), s.drop 16)) := by
  refine ⟨?_, ?_, ?_⟩
  · rintro rfl
    exact ⟨rfl, rfl⟩
  · intro h1 h15
    exact ⟨u128_deser_short s (by omega) h15, i128_deser_short s (by omega) h15⟩
  · intro h16
    exact ⟨u128_deser_long s h16, i128_deser_long s h16⟩

/-- Witness for C6 on an empty, a 1-byte and a 16-byte stream. -/
theorem C6_sixteen_byte_decode_cases_witness :
    (u128_disk_deserialize [] = .ok (none, [])
      ∧ i128_disk_deserialize [] = .ok (none, []))
    ∧ (u128_disk_deserialize [7] = .error .unexpectedEof
      ∧ i128_disk_deserialize [7] = .error .unexpectedEof)
    ∧ (u128_disk_deserialize (List.replicate 16 1)
        = .ok (some (fromLeBytes ((List.replicate 16 1).take 16)),
            (List.replicate 16 1).drop 16)
      ∧ i128_disk_deserialize (List.replicate 16 1)
        = .ok (some (i128OfLeBytes ((List.replicate 16 1).take 16)),
            (List.replicate 16 1).drop 16)) :=
  ⟨(C6_sixteen_byte_decode_cases []).1 rfl,
   (C6_sixteen_byte_decode_cases [7]).2.1 (by decide) (by decide),
   (C6_sixteen_byte_decode_cases (List.replicate 16 1)).2.2 (by decide)⟩

/-- **C1** (counterexample): at the concrete instance `Vec<u8>` with the
empty input stream — zero obtainable bytes — `disk_deserialize` returns
`Ok(Some(vec![]))`, not clean end `None`, so "decode of any type returns
clean-end iff zero bytes were obtainable at the start" fails for the
container codecs. -/
theorem C1_counterexample :
    ¬ (isCleanEnd (vec_disk_deserialize u8Decoder []) = true
        ↔ ([] : List Nat) = []) := by
  have h : vec_disk_deserialize u8Decoder [] = .ok (some [], []) :=
    vecLoop_none u8Decoder [] [] [] rfl
  rw [vec_disk_deserialize] at h
  simp [vec_disk_deserialize, h, isCleanEnd]

/-- **C1** (amended): the clean-end-iff-empty-stream rule holds for the
scalar codecs and for `CompFunc`, and the `Arc` wrapper preserves the
inner codec's clean-end classification; the container codecs `Vec` and
`HashMap` however never return clean end — a stream with zero obtainable
bytes decodes to the empty container — while any other short read still
yields a hard error, never a silently-returned value. -/
theorem C1_cleanEnd_iff_amended :
    (∀ s, isCleanEnd (u8_disk_deserialize s) = true ↔ s = [])
    ∧ (∀ s, isCleanEnd (u128_disk_deserialize s) = true ↔ s = [])
    ∧ (∀ s, isCleanEnd (i128_disk_deserialize s) = true ↔ s = [])
    ∧ (∀ (R C : Type) (unpack : List Nat → Option R)
        (compile : R → Option C) (s : List Nat),
        isCleanEnd (compFunc_disk_deserialize unpack compile s) = true
          ↔ s = [])
    ∧ (∀ (α : Type) (d : Decoder α) (s : List Nat),
        isCleanEnd (arc_disk_deserialize d s) = isCleanEnd (d.decode s))
    ∧ (∀ (α : Type) (d : Decoder α) (s : List Nat),
        isCleanEnd (vec_disk_deserialize d s) = false)
    ∧ (∀ (α : Type) (d : Decoder α), d.decode [] = .ok (none, []) →
        vec_disk_deserialize d [] = .ok (some [], []))
    ∧ (∀ (K V : Type) (instK : DecidableEq K) (dK : Decoder K)
        (dV : Decoder V) (s : List Nat),
        isCleanEnd (@hashMap_disk_deserialize K V instK dK dV s) = false)
    ∧ (∀ (K V : Type) (instK : DecidableEq K) (dK : Decoder K)
        (dV : Decoder V), dK.decode [] = .ok (none, []) →
        @hashMap_disk_deserialize K V instK dK dV []
          = .ok (some (fun _ => none), []))
    ∧ (∀ s : List Nat, 1 ≤ s.length → s.length ≤ 15 →
        u128_disk_deserialize s = .error .unexpectedEof
        ∧ i128_disk_deserialize s = .error .unexpectedEof) := by
  refine ⟨?_, ?_, ?_, ?_, ?_, ?_, ?_, ?_, ?_, ?_⟩
  · intro s
    cases s <;> simp [u8_disk_deserialize, isCleanEnd]
  · intro s
    rw [u128_disk_deserialize]
    split
    · simpa [isCleanEnd] using List.length_eq_zero.mp (by assumption)
    · split <;> simp only [isCleanEnd] <;>
        simpa using fun hs => by simp_all
  · intro s
    rw [i128_disk_deserialize]
    split
    · simpa [isCleanEnd] using List.length_eq_zero.mp (by assumption)
    · split <;> simp only [isCleanEnd] <;>
        simpa using fun hs => by simp_all
  · intro R C unpack compile s
    rw [compFunc_cleanEnd_eq]
    constructor
    · intro h
      by_contra hne
      have hlen : s.length ≠ 0 := fun hh => hne (List.length_eq_zero.mp hh)
      by_cases h15 : s.length ≤ 15
      · rw [u128_deser_short s hlen h15] at h
        simp [isCleanEnd] at h
      · rw [u128_deser_long s (by omega)] at h
        simp [isCleanEnd] at h
    · rintro rfl
      rfl
  · intro α d s
    rcases h : d.decode s with e | p
    · simp [arc_disk_deserialize, h, isCleanEnd]
    · obtain ⟨o, s'⟩ := p
      cases o <;> simp [arc_disk_deserialize, h, isCleanEnd]
  · intro α d s
    exact vecLoop_never_cleanEnd d [] s
  · intro α d he
    exact vecLoop_none d [] [] [] he
  · intro K V instK dK dV s
    exact hmLoop_never_cleanEnd dK dV (fun _ => none) s
  · intro K V instK dK dV heK
    exact hmLoop_keyNone dK dV (fun _ => none) [] [] heK
  · intro s h1 h15
    exact ⟨u128_deser_short s (by omega) h15, i128_deser_short s (by omega) h15⟩

/-- Witness for the amended C1 at concrete codecs and streams. -/
theorem C1_cleanEnd_iff_amended_witness :
    (isCleanEnd (u8_disk_deserialize []) = true ↔ ([] : List Nat) = [])
    ∧ vec_disk_deserialize u8Decoder [] = .ok (some [], [])
    ∧ hashMap_disk_deserialize u8Decoder u128Decoder []
        = .ok (some (fun _ => none), [])
    ∧ (u128_disk_deserialize [3] = .error .unexpectedEof
        ∧ i128_disk_deserialize [3] = .error .unexpectedEof) := by
  obtain ⟨h8, hu, hi, hcf, harc, hvno, hvnil, hhno, hhnil, hshort⟩ :=
    C1_cleanEnd_iff_amended
  exact ⟨h8 [], hvnil Nat u8Decoder rfl,
    hhnil Nat Nat _ u8Decoder u128Decoder rfl,
    hshort [3] (by decide) (by decide)⟩

/-- **C2**: if `HashMap::disk_deserialize` decodes a key (at any iteration
of its loop, so with any map accumulated so far) and the subsequent value
decode reports clean end, the whole map decode fails with the truncation
error `UnexpectedEof`; a decoded key is never admitted without its paired
value. -/
theorem C2_key_without_value (K V : Type) [DecidableEq K] (dK : Decoder K)
    (dV : Decoder V) (s s1 s2 : List Nat) (k : K)
    (hk : dK.decode s = .ok (some k, s1))
    (hv : dV.decode s1 = .ok (none, s2)) :
    (∀ m : K → Option V,
        hashMapDeserializeLoop dK dV m s = .error .unexpectedEof)
    ∧ hashMap_disk_deserialize dK dV s = .error .unexpectedEof := by
  refine ⟨fun m => hmLoop_valNone dK dV m s s1 s2 k hk hv, ?_⟩
  exact hmLoop_valNone dK dV (fun _ => none) s s1 s2 k hk hv

/-- Witness for C2: a stream holding exactly one valid encoded `u128` key
(the 16 little-endian bytes of 5) and nothing else, decoded as a map from
`u128` to `u128`, is a truncation error. -/
theorem C2_key_without_value_witness :
    hashMap_disk_deserialize u128Decoder u128Decoder (toLeBytes 16 5)
      = .error .unexpectedEof :=
  (C2_key_without_value Nat Nat u128Decoder u128Decoder (toLeBytes 16 5)
    [] [] 5 (by simpa using u128_deser_append 5 (by norm_num) []) rfl).2

/-- **C7**: for every element codec — a decoder that round-trips its
encoder on a single element and reports clean end on the empty stream —
and every list of N elements (N = 0, 1, or many), encoding with
`Vec::disk_serialize` and then decoding a stream containing precisely
those bytes with `Vec::disk_deserialize` reproduces the original list with
the same elements in the same order. -/
theorem C7_vec_roundtrip (α : Type) (d : Decoder α) (enc : α → List Nat)
    (hr : ∀ a r, d.decode (enc a ++ r) = .ok (some a, r))
    (he : d.decode [] = .ok (none, []))
    (l : List α) :
    vec_disk_deserialize d (vec_disk_serialize enc l).1 = .ok (some l, []) := by
  have h := vecLoop_roundtrip d enc hr he l []
  simpa [vec_disk_deserialize] using h

/-- Witness for C7 with the `u8` element codec on lists of length 0, 1
and 3. -/
theorem C7_vec_roundtrip_witness :
    vec_disk_deserialize u8Decoder
        (vec_disk_serialize (fun a => [a]) ([] : List Nat)).1
      = .ok (some [], [])
    ∧ vec_disk_deserialize u8Decoder
        (vec_disk_serialize (fun a => [a]) [5]).1
      = .ok (some [5], [])
    ∧ vec_disk_deserialize u8Decoder
        (vec_disk_serialize (fun a => [a]) [1, 2, 3]).1
      = .ok (some [1, 2, 3], []) :=
  ⟨C7_vec_roundtrip Nat u8Decoder (fun a => [a]) (fun _ _ => rfl) rfl [],
   C7_vec_roundtrip Nat u8Decoder (fun a => [a]) (fun _ _ => rfl) rfl [5],
   C7_vec_roundtrip Nat u8Decoder (fun a => [a]) (fun _ _ => rfl) rfl [1, 2, 3]⟩

/-- **C8**: the mapping decoded by `HashMap::disk_deserialize` from a
stream of encoded key/value pairs is the overwriting-insert fold of those
pairs: each decoded key maps to exactly one value, the value paired with a
key's later occurrence on the stream overwrites the earlier occurrence,
and permuting distinct-key pairs on the stream does not change the decoded
mapping. -/
theorem C8_hashMap_overwrite_order (K V : Type) [DecidableEq K]
    (dK : Decoder K) (dV : Decoder V) (encK : K → List Nat)
    (encV : V → List Nat)
    (hrK : ∀ k r, dK.decode (encK k ++ r) = .ok (some k, r))
    (hrV : ∀ v r, dV.decode (encV v ++ r) = .ok (some v, r))
    (heK : dK.decode [] = .ok (none, [])) :
    (∀ pairs : List (K × V),
        hashMap_disk_deserialize dK dV (pairsStream encK encV pairs)
          = .ok (some (mapOfPairs pairs), []))
    ∧ (∀ (xs ys : List (K × V)) (k : K) (v : V), (∀ p ∈ ys, p.1 ≠ k) →
        mapOfPairs (xs ++ (k, v) :: ys) k = some v)
    ∧ (∀ l1 l2 : List (K × V), l1.Perm l2 → (l1.map Prod.fst).Nodup →
        mapOfPairs l1 = mapOfPairs l2) := by
  refine ⟨?_, ?_, ?_⟩
  · intro pairs
    exact hashMapLoop_pairs dK dV encK encV hrK hrV heK pairs _
  · intro xs ys k v hys
    rw [mapOfPairs, List.foldl_append, List.foldl_cons,
      foldlInsert_lookup_of_not_mem ys _ k hys]
    simp [mapInsert]
  · intro l1 l2 hp hn
    simp only [mapOfPairs]
    exact foldlInsert_perm hp hn _

/-- Witness for C8 with the `u8` key and value codecs: a duplicated key
keeps only the later value, and swapping two distinct-key pairs leaves the
decoded mapping unchanged. -/
theorem C8_hashMap_overwrite_order_witness :
    hashMap_disk_deserialize u8Decoder u8Decoder
        (pairsStream (fun a => [a]) (fun a => [a]) [(1, 10), (1, 20)])
      = .ok (some (mapOfPairs [(1, 10), (1, 20)]), [])
    ∧ mapOfPairs [(1, 10), (1, 20)] 1 = some 20
    ∧ mapOfPairs [(1, 10), (2, 20)] = mapOfPairs [(2, 20), (1, 10)] := by
  obtain ⟨h1, h2, h3⟩ := C8_hashMap_overwrite_order Nat Nat u8Decoder
    u8Decoder (fun a => [a]) (fun a => [a]) (fun _ _ => rfl) (fun _ _ => rfl)
    rfl
  exact ⟨h1 [(1, 10), (1, 20)],
    h2 [(1, 10)] [] 1 20 (by simp),
    h3 [(1, 10), (2, 20)] [(2, 20), (1, 10)]
      (List.Perm.swap (2, 20) (1, 10) []) (by decide)⟩

/-- **C9**: `Arc<T>::disk_deserialize` is observationally equal to the
inner decode followed by wrapping: errors and clean end propagate
unchanged, a decoded handle dereferences to exactly the value the inner
codec produced at the same stream position, and `Arc<T>::disk_serialize`
produces exactly the bytes and count of the inner value's
`disk_serialize`. -/
theorem C9_arc_delegates (α : Type) (d : Decoder α)
    (encT : α → List Nat × Nat) (s : List Nat) :
    (∀ e, arc_disk_deserialize d s = .error e ↔ d.decode s = .error e)
    ∧ (∀ r, arc_disk_deserialize d s = .ok (none, r)
        ↔ d.decode s = .ok (none, r))
    ∧ (∀ (a : ArcBox α) (r : List Nat),
        arc_disk_deserialize d s = .ok (some a, r)
          ↔ d.decode s = .ok (some a.deref, r))
    ∧ (∀ a : ArcBox α, arc_disk_serialize encT a = encT a.deref) := by
  refine ⟨?_, ?_, ?_, fun a => rfl⟩
  · intro e
    rw [arc_disk_deserialize]
    rcases h : d.decode s with e' | ⟨o, s'⟩
    · simp
    · cases o <;> simp
  · intro r
    rw [arc_disk_deserialize]
    rcases h : d.decode s with e' | ⟨o, s'⟩
    · simp
    · cases o <;> simp
  · intro a r
    rw [arc_disk_deserialize]
    rcases h : d.decode s with e' | ⟨o, s'⟩
    · simp
    · cases o with
      | none => simp
      | some t => cases a; simp [ArcBox.mk.injEq, eq_comm]

/-- **C4**: `CompFunc::disk_deserialize` case analysis — clean end at the
length prefix is clean end; a decoded length `L` followed by fewer than `L`
obtainable payload bytes is a truncation error; exactly `L` payload bytes
that the external bit-unpacker rejects is an invalid-data error; an
unpacked raw function the external compiler rejects is an invalid-data
error; and a validly packed, compilable payload returns the compiled
function (leaving the rest of the stream). -/
theorem C4_compFunc_decode_cases (R C : Type) (unpack : List Nat → Option R)
    (compile : R → Option C) :
    (compFunc_disk_deserialize unpack compile [] = .ok (none, []))
    ∧ (∀ (L : Nat) (p : List Nat), L < 2 ^ 64 → p.length < L →
        compFunc_disk_deserialize unpack compile (toLeBytes 16 L ++ p)
          = .error .unexpectedEof)
    ∧ (∀ (L : Nat) (p rest : List Nat), L < 2 ^ 64 → p.length = L →
        unpack p = none →
        compFunc_disk_deserialize unpack compile
            (toLeBytes 16 L ++ (p ++ rest))
          = .error .invalidData)
    ∧ (∀ (L : Nat) (p rest : List Nat) (f : R), L < 2 ^ 64 → p.length = L →
        unpack p = some f → compile f = none →
        compFunc_disk_deserialize unpack compile
            (toLeBytes 16 L ++ (p ++ rest))
          = .error .invalidData)
    ∧ (∀ (L : Nat) (p rest : List Nat) (f : R) (cf : C), L < 2 ^ 64 →
        p.length = L → unpack p = some f → compile f = some cf →
        compFunc_disk_deserialize unpack compile
            (toLeBytes 16 L ++ (p ++ rest))
          = .ok (some cf, rest)) := by
  have h64 : (2 : Nat) ^ 64 < 2 ^ 128 := by norm_num
  refine ⟨rfl, ?_, ?_, ?_, ?_⟩
  · intro L p hL hp
    rw [compFunc_deser_header unpack compile L (by omega) p,
      Nat.mod_eq_of_lt hL, if_pos hp]
  · intro L p rest hL hp hu
    subst hp
    rw [compFunc_deser_header unpack compile p.length (by omega) (p ++ rest),
      Nat.mod_eq_of_lt hL, if_neg (by simp), List.take_left, hu]
  · intro L p rest f hL hp hu hc
    subst hp
    rw [compFunc_deser_header unpack compile p.length (by omega) (p ++ rest),
      Nat.mod_eq_of_lt hL, if_neg (by simp), List.take_left, hu]
    dsimp only
    rw [hc]
  · intro L p rest f cf hL hp hu hc
    subst hp
    rw [compFunc_deser_header unpack compile p.length (by omega) (p ++ rest),
      Nat.mod_eq_of_lt hL, if_neg (by simp), List.take_left, hu]
    dsimp only
    rw [hc, List.drop_left]

/-- Witness for C4 with a concrete unpacker (accepts exactly the 1-byte
buffers) and compiler (accepts exactly the raw function `[7]`). -/
theorem C4_compFunc_decode_cases_witness :
    (compFunc_disk_deserialize
        (fun bs => if bs.length = 1 then some bs else none)
        (fun f => if f = [7] then some 42 else none) [] = .ok (none, []))
    ∧ compFunc_disk_deserialize
        (fun bs => if bs.length = 1 then some bs else none)
        (fun f => if f = [7] then some 42 else none) (toLeBytes 16 2 ++ [9])
      = .error .unexpectedEof
    ∧ compFunc_disk_deserialize
        (fun bs => if bs.length = 1 then some bs else none)
        (fun f => if f = [7] then some 42 else none)
        (toLeBytes 16 2 ++ ([9, 9] ++ []))
      = .error .invalidData
    ∧ compFunc_disk_deserialize
        (fun bs => if bs.length = 1 then some bs else none)
        (fun f => if f = [7] then some 42 else none)
        (toLeBytes 16 1 ++ ([9] ++ []))
      = .error .invalidData
    ∧ compFunc_disk_deserialize
        (fun bs => if bs.length = 1 then some bs else none)
        (fun f => if f = [7] then some 42 else none)
        (toLeBytes 16 1 ++ ([7] ++ []))
      = .ok (some 42, []) := by
  obtain ⟨h0, h1, h2, h3, h4⟩ := C4_compFunc_decode_cases (List Nat) Nat
    (fun bs => if bs.length = 1 then some bs else none)
    (fun f => if f = [7] then some 42 else none)
  exact ⟨h0, h1 2 [9] (by norm_num) (by norm_num),
    h2 2 [9, 9] [] (by norm_num) rfl (by decide),
    h3 1 [9] [] [9] (by norm_num) rfl (by decide) (by decide),
    h4 1 [7] [] [7] 42 (by norm_num) rfl (by decide) (by decide)⟩

/-- **C10**: `CompFunc::disk_deserialize` converts the decoded 16-byte
length with a plain `len as usize` cast, so on a 64-bit platform the
decode depends on the declared length only through its value modulo
`2 ^ 64`: two streams whose length prefixes agree modulo `2 ^ 64` decode
identically, so an over-large prefix is silently reduced and the decode
proceeds with the reduced length instead of rejecting it. -/
theorem C10_len_as_usize_mod (R C : Type) (unpack : List Nat → Option R)
    (compile : R → Option C) (L1 L2 : Nat) (h1 : L1 < 2 ^ 128)
    (h2 : L2 < 2 ^ 128) (hmod : L1 % 2 ^ 64 = L2 % 2 ^ 64)
    (rest : List Nat) :
    compFunc_disk_deserialize unpack compile (toLeBytes 16 L1 ++ rest)
      = compFunc_disk_deserialize unpack compile (toLeBytes 16 L2 ++ rest) := by
  rw [compFunc_deser_header unpack compile L1 h1 rest,
    compFunc_deser_header unpack compile L2 h2 rest, hmod]

/-- Witness for C10: the prefix `2 ^ 64` (not representable in 64 bits)
decodes exactly like the prefix 0, and the decode succeeds rather than
rejecting the over-large length. -/
theorem C10_len_as_usize_mod_witness :
    compFunc_disk_deserialize (fun _ => some 0) (fun f : Nat => some f)
        (toLeBytes 16 (2 ^ 64) ++ [])
      = compFunc_disk_deserialize (fun _ => some 0) (fun f : Nat => some f)
        (toLeBytes 16 0 ++ [])
    ∧ compFunc_disk_deserialize (fun _ => some 0) (fun f : Nat => some f)
        (toLeBytes 16 0 ++ []) = .ok (some 0, []) :=
  ⟨C10_len_as_usize_mod Nat Nat (fun _ => some 0) (fun f => some f)
      (2 ^ 64) 0 (by norm_num) (by norm_num) (by norm_num) [],
   rfl⟩

/-- **C4** (counterexample): with the declared length `2 ^ 64` and an empty
payload — fewer obtainable payload bytes than the decoded length — the
decode does not return a truncation error: the `len as usize` cast reduces
the length to 0 and the decode succeeds. -/
theorem C4_counterexample :
    ([] : List Nat).length < 2 ^ 64
    ∧ compFunc_disk_deserialize (fun _ => some 0) (fun f : Nat => some f)
        (toLeBytes 16 (2 ^ 64) ++ []) = .ok (some 0, []) := by
  refine ⟨by norm_num, ?_⟩
  rw [compFunc_deser_header (fun _ => some 0) (fun f : Nat => some f)
    (2 ^ 64) (by norm_num) []]
  norm_num

/-- Witness for C9 at the `u8` codec on a singleton stream. -/
theorem C9_arc_delegates_witness :
    arc_disk_deserialize u8Decoder [9] = .ok (some (ArcBox.mk 9), [])
      ↔ u8Decoder.decode [9] = .ok (some (ArcBox.mk 9).deref, []) :=
  (C9_arc_delegates Nat u8Decoder (fun a => u8_disk_serialize a) [9]).2.2.1
    (ArcBox.mk 9) []
